import Mathlib

/-!
Shallow embedding of src/src/kernel/kmalloc.c (Nufflee/os).

The kernel heap allocator: a chunk bitmap (`pool`, one byte = 8 chunks), a
page backing table (`pages`, one address per page-sized window of the chunk
address space, 0 = unbacked), allocation headers (`allocation_node`) with an
additive checksum, and the one-shot bootstrap bump allocator
(`kalloc_eternal`).

Machine integers are modelled as `Nat`; byte values are kept below 256 by the
masks the source itself applies (`& 0xFF`).  External collaborators
(`allocate_physical_page`) are modelled as an oracle `Nat → Nat` indexed by a
call counter carried in the state; a fatal `ASSERT` is modelled as
`Except.error` carrying the state at the point of the halt.  `PAGE_SIZE` (from
the missing memory_manager.h) is a parameter `PS` of every operation.
-/

/-- Modelled from the spec: `CHUNK_SIZE = sizeof(size_t)`; §3 sizes a chunk to
the machine's native word width and the source is a 32-bit kernel (`u32`
indices, `addr`), so the word is 4 bytes. -/
def CHUNK_SIZE : Nat := 4

/-- Modelled from the spec: `sizeof(allocation_node)` for the record declared
in the missing kmalloc.h; §3 gives fields `startChunk`, `chunkCount` (chunk
indices, u32) and a one-byte `checksum`, so the C struct (u32, u32, u8) padded
to 4-byte alignment occupies 12 bytes. -/
def headerSize : Nat := 12

/-- Modelled from the spec: the rounding helper from the missing libk/math.h,
§4.2 calls it `ceilDiv`. -/
def divide_and_round_up (a b : Nat) : Nat := (a + b - 1) / b

/-- Modelled from the spec: `BIT_GET` from the missing libk/bits.h, the usual
`(x >> b) & 1`. -/
def BIT_GET (x b : Nat) : Nat := (x >>> b) &&& 1

/-- Modelled from the spec: `BIT_SET` from the missing libk/bits.h,
`x |= 1 << b`. -/
def BIT_SET (x b : Nat) : Nat := x ||| (1 <<< b)

/-- Modelled from the spec: `BIT_CLEAR` from the missing libk/bits.h,
`x &= ~(1 << b)` on a u8 operand. -/
def BIT_CLEAR8 (x b : Nat) : Nat := x &&& (0xFF ^^^ (1 <<< b))

/-- Modelled from the spec: the `allocation_node` record of the missing
kmalloc.h (§3 Allocation Header). -/
structure allocation_node where
  start_chunk : Nat
  chunk_size : Nat
  checksum : Nat
deriving DecidableEq, Repr

/-- Little-endian byte decomposition of a value stored in `n` bytes. -/
def leBytes : Nat → Nat → List Nat
  | 0, _ => []
  | n + 1, v => v % 256 :: leBytes n (v / 256)

/-- Modelled from the spec: the 12 stored bytes of an `allocation_node`
(u32 `start_chunk`, u32 `chunk_size`, u8 `checksum`, three padding bytes that
`kmalloc`'s `memset` zeroes). -/
def nodeBytes (nd : allocation_node) : List Nat :=
  leBytes 4 nd.start_chunk ++ leBytes 4 nd.chunk_size ++ [nd.checksum % 256, 0, 0, 0]

/-- `calculate_node_checksum` (kmalloc.c lines 180-190): byte-sum the stored
record modulo 256, then return the two's-complement negation
`((sum ^ 0xFF) + 1) & 0xFF`. -/
def calculate_node_checksum (nd : allocation_node) : Nat :=
  (((nodeBytes nd).foldl (fun a b => (a + b) &&& 0xFF) 0 ^^^ 0xFF) + 1) &&& 0xFF

/-- Bit of chunk `c` in the bitmap: `BIT_GET(pool[c / 8], c % 8)`. -/
def poolBit (pool : List Nat) (c : Nat) : Nat :=
  BIT_GET (pool.getD (c / 8) 0) (c % 8)

/-- The inner scan of `kmalloc` (lines 42-63): starting at chunk `c`, examine
`n` consecutive chunks and return the first one whose bitmap bit is set
(`none` when the whole window is free). -/
def firstOccupied (pool : List Nat) : Nat → Nat → Option Nat
  | _, 0 => none
  | c, n + 1 => if poolBit pool c ≠ 0 then some c else firstOccupied pool (c + 1) n

/-- The outer first-fit scan of `kmalloc` (lines 38-63).  The C `for` loop
increments `start_chunk_number`; on an occupied chunk `c` it restarts from
`c + 1`, except that when the byte holding `c` is `0xFF` it instead advances
the *current* start by 8 (`start_chunk_number += 7` plus the loop increment).
The loop guard is the strict `start + need < N`.  `fuel` makes the recursion
structural: each iteration increases `s` by at least one, so once `s ≥ N` the
guard fails; with `fuel = N + 1` the fuel can only run out after the guard has
already failed, hence the fuel never changes the result `kmalloc` sees. -/
def kmallocScan (pool : List Nat) (N need : Nat) : Nat → Nat → Option Nat
  | _, 0 => none
  | s, fuel + 1 =>
    if s + need < N then
      match firstOccupied pool s need with
      | none => some s
      | some c =>
        if pool.getD (c / 8) 0 = 0xFF then kmallocScan pool N need (s + 8) fuel
        else kmallocScan pool N need (c + 1) fuel
    else none

/-- The mutable globals of kmalloc.c: the chunk bitmap `pool` (bytes), the
page backing table `pages` (0 = unbacked) and the count of
`allocate_physical_page` calls made so far (index into the oracle). -/
structure KState where
  pool : List Nat
  pages : List Nat
  pageCtr : Nat
deriving DecidableEq, Repr

/-- The commit-and-mark loop of `kmalloc` (lines 67-80): for each chunk of the
run, back its window `c / (PS / CHUNK_SIZE)` if the table holds 0, then set
the chunk's bitmap bit. -/
def backAndSet (oracle : Nat → Nat) (cpw : Nat) : KState → Nat → Nat → KState
  | st, _, 0 => st
  | st, c, n + 1 =>
    backAndSet oracle cpw
      { pool := st.pool.set (c / 8) (BIT_SET (st.pool.getD (c / 8) 0) (c % 8)),
        pages := if st.pages.getD (c / cpw) 0 = 0 then
            st.pages.set (c / cpw) (oracle st.pageCtr)
          else st.pages,
        pageCtr := if st.pages.getD (c / cpw) 0 = 0 then st.pageCtr + 1 else st.pageCtr }
      (c + 1) n

/-- `kmalloc` (lines 30-102).  `.error st` models a fatal `ASSERT` halt
(`ASSERT(size > 0)` or the out-of-memory `ASSERT_ALWAYS`); `.ok (p, nd, st')`
is a successful return of pointer `p`, having written header `nd` at
`p - headerSize` and left the globals in state `st'`.  The header address is
the source's `pages[start / PAGE_SIZE] + (start - (start / PAGE_SIZE) * PAGE_SIZE) * CHUNK_SIZE`. -/
def kmalloc (oracle : Nat → Nat) (PS N : Nat) (st : KState) (size : Nat) :
    Except KState (Nat × allocation_node × KState) :=
  if size = 0 then .error st
  else
    let size' := size + headerSize
    let need := divide_and_round_up size' CHUNK_SIZE
    match kmallocScan st.pool N need 0 (N + 1) with
    | some s =>
      let st' := backAndSet oracle (PS / CHUNK_SIZE) st s need
      let spi := s / PS
      let a := st'.pages.getD spi 0 + (s - spi * PS) * CHUNK_SIZE
      let nd0 : allocation_node :=
        { start_chunk := s, chunk_size := divide_and_round_up (size' - headerSize) CHUNK_SIZE,
          checksum := 0 }
      let nd : allocation_node := { nd0 with checksum := calculate_node_checksum nd0 }
      .ok (a + headerSize, nd, st')
    | none => .error st

/-- The bit-clearing loop of `kfree` (lines 114-122): clear `n` consecutive
bits starting at chunk `c`, asserting each was set; `.error` carries the pool
at the point the assertion fired. -/
def clearRun : List Nat → Nat → Nat → Except (List Nat) (List Nat)
  | pool, _, 0 => .ok pool
  | pool, c, n + 1 =>
    if poolBit pool c = 1 then
      clearRun (pool.set (c / 8) (BIT_CLEAR8 (pool.getD (c / 8) 0) (c % 8))) (c + 1) n
    else .error pool

/-- The `can_free` test of `kfree` (lines 126-137): all `bpp` bitmap bytes
of entry `i` are zero. -/
def windowBytesClear (bpp : Nat) (pool : List Nat) (i : Nat) : Bool :=
  (List.range bpp).all fun j => pool.getD (i * bpp + j) 0 == 0

/-- The page-release loop of `kfree` (lines 124-147): visit `n` successive
entries starting at `i`; whenever entry `i`'s bitmap bytes are all clear,
release the page and zero the entry. -/
def releaseLoop (bpp : Nat) (pool : List Nat) : List Nat → Nat → Nat → List Nat
  | pages, _, 0 => pages
  | pages, i, n + 1 =>
    releaseLoop bpp pool
      (if windowBytesClear bpp pool i then pages.set i 0 else pages) (i + 1) n

/-- `kfree` (lines 104-148): validate the header checksum (fatal on failure),
clear the bits of `[start_chunk, start_chunk + chunk_size + ceilDiv(headerSize, CHUNK_SIZE))`
asserting each was set, then walk entries `start_chunk / PS .. (start_chunk + chunk_size) / PS`
of the backing table and release every one whose bitmap bytes are all zero.
`.error` carries the globals at the point of the fatal halt. -/
def kfree (PS : Nat) (st : KState) (nd : allocation_node) : Except KState KState :=
  if calculate_node_checksum nd = 0 then
    match clearRun st.pool nd.start_chunk
        (nd.chunk_size + divide_and_round_up headerSize CHUNK_SIZE) with
    | .ok pool' =>
      let lo := nd.start_chunk / PS
      let hi := (nd.start_chunk + nd.chunk_size) / PS
      let bpp := PS / CHUNK_SIZE / 8
      .ok { pool := pool', pages := releaseLoop bpp pool' st.pages lo (hi + 1 - lo),
            pageCtr := st.pageCtr }
    | .error p => .error { st with pool := p }
  else .error st

/-- The bootstrap cursor of `kalloc_eternal` plus the physical-page call
counter. -/
structure EternalState where
  eternal_address : Nat
  pageCtr : Nat
deriving DecidableEq, Repr

/-- `kalloc_eternal` (lines 151-178): fatal unless both arguments are
positive; lazily initialize the cursor from a fresh physical page; acquire
`(cursor + size) / PS - cursor / PS` further pages; zero `size` bytes at the
cursor; advance the cursor by `size` and return the pre-advance address.
`.ok (r, z, st')` returns address `r` with `z` bytes zero-filled there. -/
def kalloc_eternal (oracle : Nat → Nat) (PS : Nat) (st : EternalState)
    (element_size length : Nat) : Except EternalState (Nat × Nat × EternalState) :=
  if element_size > 0 ∧ length > 0 then
    let st0 := if st.eternal_address = 0 then
        { eternal_address := oracle st.pageCtr, pageCtr := st.pageCtr + 1 }
      else st
    let size := element_size * length
    let pta := (st0.eternal_address + size) / PS - st0.eternal_address / PS
    .ok (st0.eternal_address, size,
      { eternal_address := st0.eternal_address + size, pageCtr := st0.pageCtr + pta })
  else .error st

/-- Modelled from the spec: §4.3's address-resolution formula, the comparison
point for C3 — byte address of chunk `c` is
`backingAddress(windowOf c) + (c - firstChunkOf (windowOf c)) * ChunkSize`
with `windowOf c = c / (PS / CHUNK_SIZE)`, the same window index `kmalloc`'s
backing loop uses. -/
def specHeaderAddr (PS : Nat) (pages : List Nat) (c : Nat) : Nat :=
  pages.getD (c / (PS / CHUNK_SIZE)) 0 +
    (c - c / (PS / CHUNK_SIZE) * (PS / CHUNK_SIZE)) * CHUNK_SIZE

/-- `n` consecutive chunks starting at `s` are all free in the bitmap. -/
def checkFree (pool : List Nat) (s n : Nat) : Bool :=
  (List.range n).all fun i => poolBit pool (s + i) == 0

/-- A nonzero physical-page address oracle used by the concrete instances. -/
def pageOracle (n : Nat) : Nat := (n + 1) * 512

deriving instance DecidableEq for Except

set_option maxRecDepth 2000

/-! ### Concrete instances and evidence -/

/-- C1, counterexample: with 16 chunks, an entirely clear bitmap and a request
whose footprint is exactly 16 chunks (size 52 plus the 12-byte header), a free
run of the needed length exists inside `[0, ChunkCount)` (it is the whole
bitmap), yet `kmalloc` aborts: the scan guard `start + need < ChunkCount` is
strict, so a run ending exactly at `ChunkCount` is never examined. -/
theorem c1_counterexample :
    divide_and_round_up (52 + headerSize) CHUNK_SIZE = 16 ∧
    checkFree [0, 0] 0 16 = true ∧ 0 + 16 ≤ 16 ∧
    kmalloc pageOracle 32 16 ⟨[0, 0], [0, 0], 0⟩ 52 = .error ⟨[0, 0], [0, 0], 0⟩ := by
  decide

/-- C2: the skip-ahead advances by 8 from the current scan start rather than
from the occupied chunk, so it can land mid-way into the occupied byte and
then jump past the start of the following free run.  Here chunks 8..15 form a
fully occupied byte, chunks 16..23 are a free run of the needed length 8
(within the scan's own strict bound), yet the scan visits starts 0, 1, 9, 17,
25 — never 16 — and `kmalloc` aborts. -/
theorem c2_bug :
    divide_and_round_up (20 + headerSize) CHUNK_SIZE = 8 ∧
    checkFree [1, 255, 0, 1] 16 8 = true ∧ 16 + 8 < 32 ∧
    kmalloc pageOracle 32 32 ⟨[1, 255, 0, 1], [0, 0, 0, 0], 0⟩ 20
      = .error ⟨[1, 255, 0, 1], [0, 0, 0, 0], 0⟩ := by
  decide

/-- C3: the backing loop indexes the table by `chunk / (PAGE_SIZE / CHUNK_SIZE)`
but the header address is computed from `pages[start / PAGE_SIZE]` with offset
`(start - (start / PAGE_SIZE) * PAGE_SIZE) * CHUNK_SIZE`; the two disagree for
any chunk index at or past one window (division by `PAGE_SIZE` instead of by
the chunks-per-window count — page-size-independent as long as a chunk is more
than one byte).  Instantiated at `PS = 32` (8 chunks per window): chunks 0..7
occupied, window 0 backed at 256; allocating 4 bytes picks the run at chunk 8,
backs window `8 / 8 = 1` with fresh page 512, yet places the header at
`pages[8 / 32] + 8 * 4 = 256 + 32 = 288` (pointer 300), while the spec formula
gives base 512, pointer `512 + 12 = 524`. -/
theorem c3_bug :
    (match kmalloc pageOracle 32 32 ⟨[255, 0, 0, 0], [256, 0, 0, 0], 0⟩ 4 with
     | .ok (p, nd, st') => some (p, specHeaderAddr 32 st'.pages nd.start_chunk + headerSize)
     | .error _ => none) = some (300, 524) ∧ (300 : Nat) ≠ 524 := by
  decide

/-- C4: a single allocation spanning two windows, then freed.  At `PS = 32`
(8 chunks per window), a 24-byte request occupies chunks 0..8 (9 chunks),
backing windows 0 (page 512) and 1 (page 1024).  Freeing it clears every
bitmap bit, but the release loop iterates `i` from `start / PAGE_SIZE = 0` to
`(start + chunk_size) / PAGE_SIZE = 0` — page-size-denominated instead of
window-denominated — so only entry 0 is examined and window 1's backing
address 1024 is never released: after freeing every allocation ever made, the
bitmap is clear but the backing table still holds a backed window. -/
theorem c4_bug :
    (match kmalloc pageOracle 32 16 ⟨[0, 0], [0, 0], 0⟩ 24 with
     | .ok (_, nd, st1) => (kfree 32 st1 nd).toOption.map (fun s => (s.pool, s.pages))
     | .error _ => none) = some ([0, 0], [0, 1024]) ∧ (1024 : Nat) ≠ 0 := by
  decide

/-- C9, counterexample: on the very first call the cursor held before the call
is 0; `kalloc_eternal` lazily initializes it from a fresh physical page (here
512) and returns that address, not the pre-call cursor value. -/
theorem c9_counterexample :
    kalloc_eternal pageOracle 4096 ⟨0, 0⟩ 1 1 = .ok (512, 1, ⟨513, 1⟩) ∧
    (512 : Nat) ≠ 0 := by
  decide

/-! ### C9 (amended) and C10 -/

/-- C9 (amended): a call with `elementSize = 0` or `length = 0` halts fatally
with the state untouched; a call with both positive returns the cursor value
held after lazy initialization — the pre-call cursor on every call where the
cursor is already nonzero, and the freshly acquired page's address on the
first call — zero-fills exactly `elementSize * length` bytes at that address,
and advances the cursor to exactly that address plus `elementSize * length`;
the cursor never decreases. -/
theorem c9_amended (oracle : Nat → Nat) (PS : Nat) (st : EternalState) (e l : Nat) :
    (e = 0 ∨ l = 0 → kalloc_eternal oracle PS st e l = .error st) ∧
    (0 < e → 0 < l → ∃ r st', kalloc_eternal oracle PS st e l = .ok (r, e * l, st') ∧
      (st.eternal_address ≠ 0 → r = st.eternal_address) ∧
      (st.eternal_address = 0 → r = oracle st.pageCtr) ∧
      st'.eternal_address = r + e * l ∧ st.eternal_address ≤ st'.eternal_address) := by
  constructor
  · intro h
    unfold kalloc_eternal
    rw [if_neg]
    rcases h with h | h <;> simp [h]
  · intro he hl
    by_cases h0 : st.eternal_address = 0
    · have hE : kalloc_eternal oracle PS st e l
          = .ok (oracle st.pageCtr, e * l,
              ⟨oracle st.pageCtr + e * l,
               st.pageCtr + 1 + ((oracle st.pageCtr + e * l) / PS - oracle st.pageCtr / PS)⟩) := by
        unfold kalloc_eternal
        rw [if_pos ⟨he, hl⟩, if_pos h0]
      exact ⟨_, _, hE, fun h => absurd h0 h, fun _ => rfl, rfl,
        by rw [h0]; exact Nat.zero_le _⟩
    · have hE : kalloc_eternal oracle PS st e l
          = .ok (st.eternal_address, e * l,
              ⟨st.eternal_address + e * l,
               st.pageCtr + ((st.eternal_address + e * l) / PS - st.eternal_address / PS)⟩) := by
        unfold kalloc_eternal
        rw [if_pos ⟨he, hl⟩, if_neg h0]
      exact ⟨_, _, hE, fun _ => rfl, fun h => absurd h h0, rfl, Nat.le_add_right _ _⟩

/-- C9, witness: a non-first call (cursor 100) with `elementSize = 2`,
`length = 3`. -/
theorem c9_witness :
    0 < 2 ∧ 0 < 3 ∧
    (∃ r st', kalloc_eternal pageOracle 4096 ⟨100, 5⟩ 2 3 = .ok (r, 2 * 3, st') ∧
      ((⟨100, 5⟩ : EternalState).eternal_address ≠ 0 → r = (⟨100, 5⟩ : EternalState).eternal_address) ∧
      ((⟨100, 5⟩ : EternalState).eternal_address = 0 → r = pageOracle 5) ∧
      st'.eternal_address = r + 2 * 3 ∧
      (⟨100, 5⟩ : EternalState).eternal_address ≤ st'.eternal_address) :=
  ⟨by decide, by decide, (c9_amended pageOracle 4096 ⟨100, 5⟩ 2 3).2 (by decide) (by decide)⟩

/-- C10: `kfree`'s checksum assertion (line 112) precedes every bitmap write
and every backing-table write, so a call whose recovered header fails the
checksum validation halts with the bitmap, the backing table and the header
storage exactly as they were before the call. -/
theorem c10_checksum_halts_before_mutation (PS : Nat) (st : KState) (nd : allocation_node)
    (h : calculate_node_checksum nd ≠ 0) : kfree PS st nd = .error st := by
  unfold kfree
  rw [if_neg h]

/-- C10, witness: a header whose stored bytes sum to 1 fails validation and
`kfree` halts with the state unchanged. -/
theorem c10_witness :
    calculate_node_checksum ⟨0, 0, 1⟩ ≠ 0 ∧
    kfree 32 ⟨[0, 0], [0, 0], 0⟩ ⟨0, 0, 1⟩ = .error ⟨[0, 0], [0, 0], 0⟩ :=
  ⟨by decide, c10_checksum_halts_before_mutation 32 _ _ (by decide)⟩

/-! ### Byte arithmetic for the checksum -/

theorem and_255_eq_mod (x : Nat) : x &&& 255 = x % 256 := by
  have h := Nat.and_pow_two_sub_one_eq_mod x 8
  norm_num at h
  exact h

theorem xor_255_eq_sub : ∀ x < 256, x ^^^ 255 = 255 - x := by decide

theorem foldl_mask (l : List Nat) : ∀ a, a < 256 →
    l.foldl (fun a b => (a + b) &&& 0xFF) a = (a + l.sum) % 256 := by
  induction l with
  | nil => intro a ha; simpa using (Nat.mod_eq_of_lt ha).symm
  | cons b t ih =>
    intro a ha
    simp only [List.foldl_cons, List.sum_cons]
    rw [and_255_eq_mod, ih _ (Nat.mod_lt _ (by omega))]
    omega

theorem calculate_node_checksum_eq (nd : allocation_node) :
    calculate_node_checksum nd = (256 - (nodeBytes nd).sum % 256) % 256 := by
  have h1 : (nodeBytes nd).foldl (fun a b => (a + b) &&& 0xFF) 0 = (nodeBytes nd).sum % 256 := by
    simpa using foldl_mask (nodeBytes nd) 0 (by omega)
  unfold calculate_node_checksum
  rw [h1, xor_255_eq_sub _ (Nat.mod_lt _ (by omega)), and_255_eq_mod]
  omega

theorem nodeBytes_sum (s cs k : Nat) :
    (nodeBytes ⟨s, cs, k⟩).sum = (leBytes 4 s).sum + (leBytes 4 cs).sum + k % 256 := by
  simp [nodeBytes, leBytes]
  omega

theorem checksum_complete (s cs : Nat) :
    (nodeBytes ⟨s, cs, calculate_node_checksum ⟨s, cs, 0⟩⟩).sum % 256 = 0 ∧
    calculate_node_checksum ⟨s, cs, calculate_node_checksum ⟨s, cs, 0⟩⟩ = 0 := by
  have h0 := calculate_node_checksum_eq ⟨s, cs, 0⟩
  have hsum0 := nodeBytes_sum s cs 0
  have hsum1 := nodeBytes_sum s cs (calculate_node_checksum ⟨s, cs, 0⟩)
  have h2 := calculate_node_checksum_eq ⟨s, cs, calculate_node_checksum ⟨s, cs, 0⟩⟩
  constructor
  · rw [hsum1, h0, hsum0]; omega
  · rw [h2, hsum1, h0, hsum0]; omega

/-! ### Inversion of a successful `kmalloc` -/

theorem kmalloc_ok_elim {oracle : Nat → Nat} {PS N : Nat} {st : KState} {size p : Nat}
    {nd : allocation_node} {st' : KState}
    (h : kmalloc oracle PS N st size = .ok (p, nd, st')) :
    size ≠ 0 ∧ ∃ s,
      kmallocScan st.pool N (divide_and_round_up (size + headerSize) CHUNK_SIZE) 0 (N + 1)
        = some s ∧
      st' = backAndSet oracle (PS / CHUNK_SIZE) st s
        (divide_and_round_up (size + headerSize) CHUNK_SIZE) ∧
      nd = { start_chunk := s,
             chunk_size := divide_and_round_up (size + headerSize - headerSize) CHUNK_SIZE,
             checksum := calculate_node_checksum
               { start_chunk := s,
                 chunk_size := divide_and_round_up (size + headerSize - headerSize) CHUNK_SIZE,
                 checksum := 0 } } := by
  unfold kmalloc at h
  by_cases hz : size = 0
  · rw [if_pos hz] at h
    exact absurd h (by simp)
  · rw [if_neg hz] at h
    simp only [] at h
    cases hscan : kmallocScan st.pool N (divide_and_round_up (size + headerSize) CHUNK_SIZE) 0
        (N + 1) with
    | none =>
      rw [hscan] at h
      exact absurd h (by simp)
    | some s =>
      rw [hscan] at h
      simp only [Except.ok.injEq, Prod.mk.injEq] at h
      exact ⟨hz, s, rfl, h.2.2.symm, h.2.1.symm⟩

/-- C5: every header written by a successful `kmalloc` — `start_chunk` and
`chunk_size` set, checksum computed by `calculate_node_checksum` with the
checksum byte still zero from the `memset` — has stored bytes (including the
stored checksum byte) summing to 0 modulo 256, and recomputing the checksum
over the full stored record, as `kfree` does, yields 0. -/
theorem c5_checksum_roundtrip {oracle : Nat → Nat} {PS N : Nat} {st : KState}
    {size p : Nat} {nd : allocation_node} {st' : KState}
    (h : kmalloc oracle PS N st size = .ok (p, nd, st')) :
    (nodeBytes nd).sum % 256 = 0 ∧ calculate_node_checksum nd = 0 := by
  obtain ⟨-, s, -, -, hnd⟩ := kmalloc_ok_elim h
  subst hnd
  exact checksum_complete s _

/-- C5, witness: the header of a concrete successful 4-byte allocation. -/
theorem c5_witness :
    kmalloc pageOracle 32 16 ⟨[0, 0], [0, 0], 0⟩ 4
      = .ok (524, ⟨0, 1, 255⟩, ⟨[15, 0], [512, 0], 1⟩) ∧
    (nodeBytes ⟨0, 1, 255⟩).sum % 256 = 0 ∧ calculate_node_checksum ⟨0, 1, 255⟩ = 0 := by
  have h : kmalloc pageOracle 32 16 ⟨[0, 0], [0, 0], 0⟩ 4
      = .ok (524, ⟨0, 1, 255⟩, ⟨[15, 0], [512, 0], 1⟩) := by decide
  exact ⟨h, c5_checksum_roundtrip h⟩

/-! ### One-step unfolding equations (all definitional) -/

theorem firstOccupied_succ (pool : List Nat) (c n : Nat) :
    firstOccupied pool c (n + 1)
      = if poolBit pool c ≠ 0 then some c else firstOccupied pool (c + 1) n := rfl

theorem kmallocScan_succ (pool : List Nat) (N need s fuel : Nat) :
    kmallocScan pool N need s (fuel + 1)
      = if s + need < N then
          match firstOccupied pool s need with
          | none => some s
          | some c =>
            if pool.getD (c / 8) 0 = 0xFF then kmallocScan pool N need (s + 8) fuel
            else kmallocScan pool N need (c + 1) fuel
        else none := rfl

theorem clearRun_succ (pool : List Nat) (c n : Nat) :
    clearRun pool c (n + 1)
      = if poolBit pool c = 1 then
          clearRun (pool.set (c / 8) (BIT_CLEAR8 (pool.getD (c / 8) 0) (c % 8))) (c + 1) n
        else .error pool := rfl

theorem backAndSet_succ (oracle : Nat → Nat) (cpw : Nat) (st : KState) (c n : Nat) :
    backAndSet oracle cpw st c (n + 1)
      = backAndSet oracle cpw
          { pool := st.pool.set (c / 8) (BIT_SET (st.pool.getD (c / 8) 0) (c % 8)),
            pages := if st.pages.getD (c / cpw) 0 = 0 then
                st.pages.set (c / cpw) (oracle st.pageCtr)
              else st.pages,
            pageCtr := if st.pages.getD (c / cpw) 0 = 0 then st.pageCtr + 1 else st.pageCtr }
          (c + 1) n := rfl

theorem releaseLoop_succ (bpp : Nat) (pool pages : List Nat) (i n : Nat) :
    releaseLoop bpp pool pages i (n + 1)
      = releaseLoop bpp pool
          (if windowBytesClear bpp pool i then pages.set i 0 else pages) (i + 1) n := rfl

/-! ### Bit-level toolkit -/

theorem BIT_GET_eq_testBit (x b : Nat) : BIT_GET x b = if x.testBit b then 1 else 0 := by
  unfold BIT_GET
  rw [Nat.and_one_is_mod, Nat.shiftRight_eq_div_pow, Nat.testBit_to_div_mod]
  rcases Nat.mod_two_eq_zero_or_one (x / 2 ^ b) with h | h <;> simp [h]

theorem testBit_BIT_SET_self (x b : Nat) : (BIT_SET x b).testBit b = true := by
  unfold BIT_SET
  simp [Nat.one_shiftLeft, Nat.testBit_two_pow_self]

theorem testBit_BIT_SET_ne (x b j : Nat) (h : j ≠ b) : (BIT_SET x b).testBit j = x.testBit j := by
  unfold BIT_SET
  simp [Nat.one_shiftLeft, Nat.testBit_two_pow_of_ne (fun he => h he.symm)]

theorem testBit_255 : ∀ b < 8, (255 : Nat).testBit b = true := by decide

theorem testBit_BIT_CLEAR8_self (x b : Nat) (hb : b < 8) :
    (BIT_CLEAR8 x b).testBit b = false := by
  unfold BIT_CLEAR8
  simp [Nat.one_shiftLeft, Nat.testBit_two_pow_self, testBit_255 b hb]

theorem testBit_BIT_CLEAR8_ne (x b j : Nat) (hj : j < 8) (h : j ≠ b) :
    (BIT_CLEAR8 x b).testBit j = x.testBit j := by
  unfold BIT_CLEAR8
  simp [Nat.one_shiftLeft, Nat.testBit_two_pow_of_ne (fun he => h he.symm), testBit_255 j hj]

theorem poolBit_oob (pool : List Nat) (c : Nat) (h : pool.length ≤ c / 8) :
    poolBit pool c = 0 := by
  unfold poolBit
  rw [List.getD_eq_default _ _ h]
  simp [BIT_GET]

theorem poolBit_set (pool : List Nat) (c b : Nat) (hc : c / 8 < pool.length) :
    poolBit (pool.set (c / 8) (BIT_SET (pool.getD (c / 8) 0) (c % 8))) b
      = if b = c then 1 else poolBit pool b := by
  have hset : (pool.set (c / 8) (BIT_SET (pool.getD (c / 8) 0) (c % 8))).getD (c / 8) 0
      = BIT_SET (pool.getD (c / 8) 0) (c % 8) := by
    simp [List.getD_eq_getElem?_getD, List.getElem?_set_self hc]
  by_cases hb : b = c
  · subst hb
    rw [if_pos rfl]
    unfold poolBit
    rw [hset, BIT_GET_eq_testBit, testBit_BIT_SET_self, if_pos rfl]
  · rw [if_neg hb]
    by_cases hbyte : b / 8 = c / 8
    · have hmod : b % 8 ≠ c % 8 := by omega
      unfold poolBit
      rw [hbyte, hset, BIT_GET_eq_testBit, testBit_BIT_SET_ne _ _ _ hmod,
        ← BIT_GET_eq_testBit]
    · unfold poolBit
      rw [List.getD_eq_getElem?_getD, List.getElem?_set_ne (fun he => hbyte he.symm),
        ← List.getD_eq_getElem?_getD]

theorem poolBit_clear (pool : List Nat) (c b : Nat) (hc : c / 8 < pool.length) :
    poolBit (pool.set (c / 8) (BIT_CLEAR8 (pool.getD (c / 8) 0) (c % 8))) b
      = if b = c then 0 else poolBit pool b := by
  have hset : (pool.set (c / 8) (BIT_CLEAR8 (pool.getD (c / 8) 0) (c % 8))).getD (c / 8) 0
      = BIT_CLEAR8 (pool.getD (c / 8) 0) (c % 8) := by
    simp [List.getD_eq_getElem?_getD, List.getElem?_set_self hc]
  by_cases hb : b = c
  · subst hb
    rw [if_pos rfl]
    unfold poolBit
    rw [hset, BIT_GET_eq_testBit, testBit_BIT_CLEAR8_self _ _ (Nat.mod_lt _ (by omega)),
      if_neg (by simp)]
  · rw [if_neg hb]
    by_cases hbyte : b / 8 = c / 8
    · have hmod : b % 8 ≠ c % 8 := by omega
      unfold poolBit
      rw [hbyte, hset, BIT_GET_eq_testBit,
        testBit_BIT_CLEAR8_ne _ _ _ (Nat.mod_lt _ (by omega)) hmod, ← BIT_GET_eq_testBit]
    · unfold poolBit
      rw [List.getD_eq_getElem?_getD, List.getElem?_set_ne (fun he => hbyte he.symm),
        ← List.getD_eq_getElem?_getD]

/-! ### `clearRun` characterization -/

theorem clearRun_ok_bits : ∀ n (pool : List Nat) (c : Nat) (pool' : List Nat),
    clearRun pool c n = .ok pool' →
    ∀ b, poolBit pool' b = if c ≤ b ∧ b < c + n then 0 else poolBit pool b := by
  intro n
  induction n with
  | zero =>
    intro pool c pool' h b
    obtain rfl : pool = pool' := by simpa [clearRun] using h
    rw [if_neg (by omega)]
  | succ n ih =>
    intro pool c pool' h b
    rw [clearRun_succ] at h
    by_cases h1 : poolBit pool c = 1
    · rw [if_pos h1] at h
      have hin : c / 8 < pool.length := by
        by_contra hle
        have := poolBit_oob pool c (Nat.le_of_not_lt hle)
        omega
      have hb := ih _ _ _ h b
      rw [hb, poolBit_clear pool c b hin]
      split_ifs <;> first | rfl | omega
    · rw [if_neg h1] at h
      exact absurd h (by simp)

theorem clearRun_ok_length : ∀ n (pool : List Nat) (c : Nat) (pool' : List Nat),
    clearRun pool c n = .ok pool' → pool'.length = pool.length := by
  intro n
  induction n with
  | zero =>
    intro pool c pool' h
    obtain rfl : pool = pool' := by simpa [clearRun] using h
    rfl
  | succ n ih =>
    intro pool c pool' h
    rw [clearRun_succ] at h
    by_cases h1 : poolBit pool c = 1
    · rw [if_pos h1] at h
      rw [ih _ _ _ h]
      simp
    · rw [if_neg h1] at h
      exact absurd h (by simp)

/-! ### Inversion of `kfree` -/

theorem kfree_ok_elim {PS : Nat} {st st' : KState} {nd : allocation_node}
    (h : kfree PS st nd = .ok st') :
    calculate_node_checksum nd = 0 ∧
    ∃ pool', clearRun st.pool nd.start_chunk
        (nd.chunk_size + divide_and_round_up headerSize CHUNK_SIZE) = .ok pool' ∧
      st' = { pool := pool',
              pages := releaseLoop (PS / CHUNK_SIZE / 8) pool' st.pages (nd.start_chunk / PS)
                ((nd.start_chunk + nd.chunk_size) / PS + 1 - nd.start_chunk / PS),
              pageCtr := st.pageCtr } := by
  unfold kfree at h
  by_cases hchk : calculate_node_checksum nd = 0
  · rw [if_pos hchk] at h
    cases hcl : clearRun st.pool nd.start_chunk
        (nd.chunk_size + divide_and_round_up headerSize CHUNK_SIZE) with
    | ok pool' =>
      rw [hcl] at h
      simp only [Except.ok.injEq] at h
      exact ⟨hchk, pool', rfl, h.symm⟩
    | error p =>
      rw [hcl] at h
      exact absurd h (by simp)
  · rw [if_neg hchk] at h
    exact absurd h (by simp)

/-- C6: if `kfree` completes once on a header, a second `kfree` with the same
header bytes halts fatally: the checksum still validates, but the very first
iteration of the bit-clearing loop finds bit `start_chunk` already clear and
the `ASSERT(BIT_GET(...) == true)` fires before any state is modified. -/
theorem c6_double_free_detected {PS : Nat} {st st' : KState} {nd : allocation_node}
    (h : kfree PS st nd = .ok st') : kfree PS st' nd = .error st' := by
  obtain ⟨hchk, pool', hcl, hst⟩ := kfree_ok_elim h
  have h3 : divide_and_round_up headerSize CHUNK_SIZE = 3 := rfl
  have hbit : poolBit st'.pool nd.start_chunk = 0 := by
    rw [hst]
    rw [clearRun_ok_bits _ _ _ _ hcl nd.start_chunk]
    rw [if_pos ⟨Nat.le_refl _, by omega⟩]
  unfold kfree
  rw [if_pos hchk]
  have hcnt : nd.chunk_size + divide_and_round_up headerSize CHUNK_SIZE
      = (nd.chunk_size + 2) + 1 := by omega
  rw [hcnt, clearRun_succ, if_neg (by simp [hbit])]

/-- C6, witness: free a concrete one-chunk allocation's header twice. -/
theorem c6_witness :
    kfree 32 ⟨[15, 0], [512, 0], 1⟩ ⟨0, 1, 255⟩ = .ok ⟨[0, 0], [0, 0], 1⟩ ∧
    kfree 32 ⟨[0, 0], [0, 0], 1⟩ ⟨0, 1, 255⟩ = .error ⟨[0, 0], [0, 0], 1⟩ := by
  have h : kfree 32 ⟨[15, 0], [512, 0], 1⟩ ⟨0, 1, 255⟩ = .ok ⟨[0, 0], [0, 0], 1⟩ := by decide
  exact ⟨h, c6_double_free_detected h⟩

/-! ### Soundness of the first-fit scan -/

theorem checkFree_iff (pool : List Nat) (s n : Nat) :
    checkFree pool s n = true ↔ ∀ i < n, poolBit pool (s + i) = 0 := by
  unfold checkFree
  simp [List.all_eq_true]

theorem firstOccupied_eq_none (pool : List Nat) : ∀ n c,
    firstOccupied pool c n = none ↔ ∀ i < n, poolBit pool (c + i) = 0 := by
  intro n
  induction n with
  | zero => intro c; simp [firstOccupied]
  | succ n ih =>
    intro c
    rw [firstOccupied_succ]
    by_cases h : poolBit pool c ≠ 0
    · rw [if_pos h]
      constructor
      · intro hnone; exact absurd hnone (by simp)
      · intro hall; exact absurd (by simpa using hall 0 (Nat.succ_pos n)) h
    · rw [if_neg h]
      simp only [ne_eq, not_not] at h
      rw [ih (c + 1)]
      constructor
      · intro hall i hi
        match i with
        | 0 => simpa using h
        | j + 1 =>
          have hj := hall j (by omega)
          have : c + 1 + j = c + (j + 1) := by omega
          rw [this] at hj
          exact hj
      · intro hall i hi
        have hj := hall (i + 1) (by omega)
        have : c + (i + 1) = c + 1 + i := by omega
        rw [this] at hj
        exact hj

theorem kmallocScan_sound {pool : List Nat} {N need : Nat} : ∀ fuel s r,
    kmallocScan pool N need s fuel = some r →
    r + need < N ∧ ∀ i < need, poolBit pool (r + i) = 0 := by
  intro fuel
  induction fuel with
  | zero => intro s r h; exact absurd h (by simp [kmallocScan])
  | succ fuel ih =>
    intro s r h
    rw [kmallocScan_succ] at h
    by_cases hg : s + need < N
    · rw [if_pos hg] at h
      split at h
      · next hocc =>
          obtain rfl : s = r := by simpa using h
          exact ⟨hg, (firstOccupied_eq_none pool need s).1 hocc⟩
      · next c hocc =>
          split at h
          · exact ih _ _ h
          · exact ih _ _ h
    · rw [if_neg hg] at h
      exact absurd h (by simp)

theorem kmalloc_error_elim {oracle : Nat → Nat} {PS N : Nat} {st : KState} {size : Nat}
    {st0 : KState} (h : kmalloc oracle PS N st size = .error st0) : st0 = st := by
  unfold kmalloc at h
  by_cases hz : size = 0
  · rw [if_pos hz] at h
    simp only [Except.error.injEq] at h
    exact h.symm
  · rw [if_neg hz] at h
    simp only [] at h
    cases hscan : kmallocScan st.pool N (divide_and_round_up (size + headerSize) CHUNK_SIZE) 0
        (N + 1) with
    | some s =>
      rw [hscan] at h
      exact absurd h (by simp)
    | none =>
      rw [hscan] at h
      simp only [Except.error.injEq] at h
      exact h.symm

/-- C1 (amended): for every positive `size`, if no contiguous run of
`ceilDiv(size + headerSize, ChunkSize)` free chunks exists anywhere in
`[0, ChunkCount)`, then `kmalloc` aborts fatally (modelled as `.error` with
the state unchanged) — it never returns a null or sentinel value.  The
converse of the original claim fails: a qualifying run's existence does not
guarantee a successful return, because the scan's loop guard
`start + need < ChunkCount` never considers runs ending exactly at
`ChunkCount` (counterexample `c1_counterexample`) and the skip-ahead can
jump past a run's start (`c2_bug`). -/
theorem c1_amended {oracle : Nat → Nat} {PS N size : Nat} {st : KState}
    (hsize : 0 < size)
    (hnorun : ∀ s < N, s + divide_and_round_up (size + headerSize) CHUNK_SIZE ≤ N →
      checkFree st.pool s (divide_and_round_up (size + headerSize) CHUNK_SIZE) = false) :
    kmalloc oracle PS N st size = .error st := by
  cases hres : kmalloc oracle PS N st size with
  | error st0 =>
    rw [kmalloc_error_elim hres]
  | ok val =>
    obtain ⟨p, nd, st'⟩ := val
    obtain ⟨-, s, hscan, -, -⟩ := kmalloc_ok_elim hres
    obtain ⟨hlt, hfree⟩ := kmallocScan_sound _ _ _ hscan
    have hneed : 0 < divide_and_round_up (size + headerSize) CHUNK_SIZE := by
      unfold divide_and_round_up headerSize CHUNK_SIZE
      omega
    have hfalse := hnorun s (by omega) (by omega)
    have htrue : checkFree st.pool s (divide_and_round_up (size + headerSize) CHUNK_SIZE)
        = true := (checkFree_iff _ _ _).2 hfree
    rw [htrue] at hfalse
    exact absurd hfalse (by simp)

/-- C1, witness: a fully occupied one-byte bitmap (8 chunks) has no free run
at all, and `kmalloc` of one byte aborts with the state unchanged. -/
theorem c1_witness :
    0 < 1 ∧
    (∀ s < 8, s + divide_and_round_up (1 + headerSize) CHUNK_SIZE ≤ 8 →
      checkFree (KState.pool ⟨[255], [0], 0⟩) s (divide_and_round_up (1 + headerSize) CHUNK_SIZE)
        = false) ∧
    kmalloc pageOracle 32 8 ⟨[255], [0], 0⟩ 1 = .error ⟨[255], [0], 0⟩ :=
  ⟨by decide, by decide, c1_amended (by decide) (by decide)⟩

/-! ### `backAndSet` characterization -/

theorem backAndSet_pool_length (oracle : Nat → Nat) (cpw : Nat) : ∀ n (st : KState) (c : Nat),
    (backAndSet oracle cpw st c n).pool.length = st.pool.length := by
  intro n
  induction n with
  | zero => intro st c; rfl
  | succ n ih =>
    intro st c
    rw [backAndSet_succ, ih]
    simp

theorem backAndSet_pages_length (oracle : Nat → Nat) (cpw : Nat) : ∀ n (st : KState) (c : Nat),
    (backAndSet oracle cpw st c n).pages.length = st.pages.length := by
  intro n
  induction n with
  | zero => intro st c; rfl
  | succ n ih =>
    intro st c
    rw [backAndSet_succ, ih]
    dsimp only
    by_cases h : st.pages.getD (c / cpw) 0 = 0
    · rw [if_pos h]
      simp
    · rw [if_neg h]

theorem backAndSet_pool_bits (oracle : Nat → Nat) (cpw : Nat) : ∀ n (st : KState) (c : Nat),
    (∀ k, k < n → (c + k) / 8 < st.pool.length) →
    ∀ b, poolBit (backAndSet oracle cpw st c n).pool b
      = if c ≤ b ∧ b < c + n then 1 else poolBit st.pool b := by
  intro n
  induction n with
  | zero =>
    intro st c _ b
    rw [if_neg (by omega)]
    rfl
  | succ n ih =>
    intro st c hin b
    have hc0 : c / 8 < st.pool.length := by simpa using hin 0 (by omega)
    have hin' : ∀ k, k < n → (c + 1 + k) / 8 <
        (st.pool.set (c / 8) (BIT_SET (st.pool.getD (c / 8) 0) (c % 8))).length := by
      intro k hk
      have h1 := hin (k + 1) (by omega)
      have he : c + (k + 1) = c + 1 + k := by omega
      rw [he] at h1
      simpa using h1
    rw [backAndSet_succ, ih _ _ hin' b]
    dsimp only
    rw [poolBit_set st.pool c b hc0]
    split_ifs <;> first | rfl | omega

theorem backAndSet_pages_nonzero (oracle : Nat → Nat) (cpw : Nat)
    (horacle : ∀ m, oracle m ≠ 0) : ∀ n (st : KState) (c w : Nat),
    st.pages.getD w 0 ≠ 0 → (backAndSet oracle cpw st c n).pages.getD w 0 ≠ 0 := by
  intro n
  induction n with
  | zero => intro st c w h; exact h
  | succ n ih =>
    intro st c w h
    rw [backAndSet_succ]
    apply ih
    dsimp only
    by_cases hpg : st.pages.getD (c / cpw) 0 = 0
    · rw [if_pos hpg]
      by_cases hw : w = c / cpw
      · subst hw
        by_cases hin : c / cpw < st.pages.length
        · rw [List.getD_eq_getElem?_getD, List.getElem?_set_self hin]
          simpa using horacle st.pageCtr
        · rw [List.set_eq_of_length_le (Nat.le_of_not_lt hin)]
          exact h
      · rw [List.getD_eq_getElem?_getD, List.getElem?_set_ne (fun he => hw he.symm),
          ← List.getD_eq_getElem?_getD]
        exact h
    · rw [if_neg hpg]
      exact h

theorem backAndSet_backs (oracle : Nat → Nat) (cpw : Nat)
    (horacle : ∀ m, oracle m ≠ 0) : ∀ n (st : KState) (c : Nat),
    (∀ k, k < n → (c + k) / cpw < st.pages.length) →
    ∀ k, k < n → (backAndSet oracle cpw st c n).pages.getD ((c + k) / cpw) 0 ≠ 0 := by
  intro n
  induction n with
  | zero => intro st c _ k hk; omega
  | succ n ih =>
    intro st c hin k hk
    rw [backAndSet_succ]
    match k with
    | 0 =>
      apply backAndSet_pages_nonzero oracle cpw horacle
      dsimp only
      have hin0 : c / cpw < st.pages.length := by simpa using hin 0 (by omega)
      by_cases hpg : st.pages.getD (c / cpw) 0 = 0
      · rw [if_pos hpg]
        simp only [Nat.add_zero]
        rw [List.getD_eq_getElem?_getD, List.getElem?_set_self hin0]
        simpa using horacle st.pageCtr
      · rw [if_neg hpg]
        simpa using hpg
    | k + 1 =>
      have hlen : (if st.pages.getD (c / cpw) 0 = 0 then
          st.pages.set (c / cpw) (oracle st.pageCtr)
        else st.pages).length = st.pages.length := by
        by_cases hpg : st.pages.getD (c / cpw) 0 = 0
        · rw [if_pos hpg]
          simp
        · rw [if_neg hpg]
      have hin' : ∀ j, j < n → (c + 1 + j) / cpw <
          (if st.pages.getD (c / cpw) 0 = 0 then
              st.pages.set (c / cpw) (oracle st.pageCtr)
            else st.pages).length := by
        intro j hj
        rw [hlen]
        have h1 := hin (j + 1) (by omega)
        have he : c + (j + 1) = c + 1 + j := by omega
        rw [he] at h1
        exact h1
      have hres := ih
        { pool := st.pool.set (c / 8) (BIT_SET (st.pool.getD (c / 8) 0) (c % 8)),
          pages := if st.pages.getD (c / cpw) 0 = 0 then
              st.pages.set (c / cpw) (oracle st.pageCtr)
            else st.pages,
          pageCtr := if st.pages.getD (c / cpw) 0 = 0 then st.pageCtr + 1 else st.pageCtr }
        (c + 1) hin' k (by omega)
      have he : c + 1 + k = c + (k + 1) := by omega
      rw [he] at hres
      exact hres

/-! ### `releaseLoop` and the window byte check -/

theorem releaseLoop_preserve (bpp : Nat) (pool : List Nat) : ∀ n (pages : List Nat) (i w : Nat),
    windowBytesClear bpp pool w = false →
    (releaseLoop bpp pool pages i n).getD w 0 = pages.getD w 0 := by
  intro n
  induction n with
  | zero => intro pages i w _; rfl
  | succ n ih =>
    intro pages i w hw
    rw [releaseLoop_succ, ih _ _ _ hw]
    by_cases hc : windowBytesClear bpp pool i = true
    · rw [if_pos hc]
      have hiw : i ≠ w := by
        intro he
        rw [he, hw] at hc
        cases hc
      rw [List.getD_eq_getElem?_getD, List.getElem?_set_ne hiw, ← List.getD_eq_getElem?_getD]
    · rw [if_neg hc]

theorem windowBytesClear_byte (bpp : Nat) (pool : List Nat) (w : Nat)
    (h : windowBytesClear bpp pool w = true) (y : Nat)
    (h1 : w * bpp ≤ y) (h2 : y < w * bpp + bpp) : pool.getD y 0 = 0 := by
  unfold windowBytesClear at h
  rw [List.all_eq_true] at h
  have hbyte := h (y - w * bpp) (List.mem_range.2 (by omega))
  have he : w * bpp + (y - w * bpp) = y := by omega
  rw [he] at hbyte
  simpa using hbyte

/-! ### The lazy-backing invariant (C8) -/

/-- Every chunk below `N` whose bitmap bit is set lies in a window whose
backing-table entry is nonzero. -/
def BackedInv (cpw N : Nat) (st : KState) : Prop :=
  ∀ c < N, poolBit st.pool c = 1 → st.pages.getD (c / cpw) 0 ≠ 0

instance (cpw N : Nat) (st : KState) : Decidable (BackedInv cpw N st) := by
  unfold BackedInv
  infer_instance

/-- C8: both operations preserve the lazy-backing invariant.  `kmalloc` backs
the window `c / (PS/CHUNK_SIZE)` of every chunk `c` of the run before setting
`c`'s bit, and never unbacks anything; `kfree` zeroes a backing-table entry
`i` only after checking that the bitmap bytes `i*bpp .. i*bpp+bpp-1`
(`bpp = PS/CHUNK_SIZE/8`, i.e. exactly the byte range of chunk window `i`)
are all zero, so no set bit can lose its backing. -/
theorem c8_lazy_backing {oracle : Nat → Nat} {PS N : Nat} {st : KState}
    (horacle : ∀ m, oracle m ≠ 0)
    (hcpw8 : 8 ∣ (PS / CHUNK_SIZE))
    (hcpw0 : 0 < PS / CHUNK_SIZE)
    (hpool : N ≤ 8 * st.pool.length)
    (hpages : N ≤ (PS / CHUNK_SIZE) * st.pages.length)
    (hinv : BackedInv (PS / CHUNK_SIZE) N st) :
    (∀ size p nd st', kmalloc oracle PS N st size = .ok (p, nd, st') →
      BackedInv (PS / CHUNK_SIZE) N st') ∧
    (∀ nd st', kfree PS st nd = .ok st' → BackedInv (PS / CHUNK_SIZE) N st') := by
  have hpages' : N ≤ st.pages.length * (PS / CHUNK_SIZE) := by
    rw [Nat.mul_comm]
    exact hpages
  have hpool' : N ≤ st.pool.length * 8 := by omega
  constructor
  · intro size p nd st' hok
    obtain ⟨-, s, hscan, hst', -⟩ := kmalloc_ok_elim hok
    obtain ⟨hlt, -⟩ := kmallocScan_sound _ _ _ hscan
    intro c hc hbit
    subst hst'
    rw [backAndSet_pool_bits oracle _ _ st s
      (fun k hk => (Nat.div_lt_iff_lt_mul (by omega)).2 (by omega)) c] at hbit
    by_cases hcin : s ≤ c ∧ c < s + divide_and_round_up (size + headerSize) CHUNK_SIZE
    · have he : c = s + (c - s) := by omega
      rw [he]
      exact backAndSet_backs oracle _ horacle _ st s
        (fun k hk => (Nat.div_lt_iff_lt_mul hcpw0).2 (by omega)) (c - s) (by omega)
    · rw [if_neg hcin] at hbit
      exact backAndSet_pages_nonzero oracle _ horacle _ st s _ (hinv c hc hbit)
  · intro nd st' hok
    obtain ⟨hchk, pool', hcl, hst'⟩ := kfree_ok_elim hok
    intro c hc hbit
    subst hst'
    dsimp only at hbit ⊢
    have hold : poolBit st.pool c = 1 := by
      rw [clearRun_ok_bits _ _ _ _ hcl c] at hbit
      by_cases hin : nd.start_chunk ≤ c ∧
          c < nd.start_chunk + (nd.chunk_size + divide_and_round_up headerSize CHUNK_SIZE)
      · rw [if_pos hin] at hbit
        omega
      · rw [if_neg hin] at hbit
        exact hbit
    have hnz := hinv c hc hold
    obtain ⟨bpp, hb⟩ := hcpw8
    have hbpp0 : 0 < bpp := by omega
    have hbppeq : PS / CHUNK_SIZE / 8 = bpp := by
      rw [hb]
      exact Nat.mul_div_cancel_left bpp (by omega)
    have hbnz : pool'.getD (c / 8) 0 ≠ 0 := by
      intro h0
      have hz : poolBit pool' c = 0 := by
        unfold poolBit
        rw [h0]
        simp [BIT_GET]
      omega
    have hwc : windowBytesClear (PS / CHUNK_SIZE / 8) pool' (c / (PS / CHUNK_SIZE)) = false := by
      rw [hbppeq]
      by_cases hcon : windowBytesClear bpp pool' (c / (PS / CHUNK_SIZE)) = true
      · exfalso
        apply hbnz
        have hdd : c / (PS / CHUNK_SIZE) = c / 8 / bpp := by
          rw [hb]
          exact (Nat.div_div_eq_div_mul c 8 bpp).symm
        have hle : c / 8 / bpp * bpp ≤ c / 8 := Nat.div_mul_le_self _ _
        have hlt2 : c / 8 < c / 8 / bpp * bpp + bpp := by
          have h1 := Nat.div_add_mod (c / 8) bpp
          have h2 := Nat.mod_lt (c / 8) hbpp0
          calc c / 8 = bpp * (c / 8 / bpp) + c / 8 % bpp := h1.symm
            _ < bpp * (c / 8 / bpp) + bpp := by omega
            _ = c / 8 / bpp * bpp + bpp := by rw [Nat.mul_comm]
        exact windowBytesClear_byte bpp pool' (c / (PS / CHUNK_SIZE)) hcon (c / 8)
          (by rw [hdd]; exact hle) (by rw [hdd]; exact hlt2)
      · simpa using hcon
    rw [releaseLoop_preserve _ _ _ _ _ _ hwc]
    exact hnz

/-- C8, witness: the empty two-window instance satisfies every hypothesis. -/
theorem c8_witness :
    (∀ m, pageOracle m ≠ 0) ∧ (8 ∣ (32 / CHUNK_SIZE)) ∧ (0 < 32 / CHUNK_SIZE) ∧
    (16 ≤ 8 * (KState.pool ⟨[0, 0], [0, 0], 0⟩).length) ∧
    (16 ≤ (32 / CHUNK_SIZE) * (KState.pages ⟨[0, 0], [0, 0], 0⟩).length) ∧
    BackedInv (32 / CHUNK_SIZE) 16 ⟨[0, 0], [0, 0], 0⟩ ∧
    ((∀ size p nd st', kmalloc pageOracle 32 16 ⟨[0, 0], [0, 0], 0⟩ size = .ok (p, nd, st') →
        BackedInv (32 / CHUNK_SIZE) 16 st') ∧
      (∀ nd st', kfree 32 ⟨[0, 0], [0, 0], 0⟩ nd = .ok st' →
        BackedInv (32 / CHUNK_SIZE) 16 st')) := by
  have h1 : ∀ m, pageOracle m ≠ 0 := fun m => by simp [pageOracle]
  refine ⟨h1, by decide, by decide, by decide, by decide, by decide, ?_⟩
  exact c8_lazy_backing h1 (by decide) (by decide) (by decide) (by decide) (by decide)

/-! ### Reachable states and live allocations (C7) -/

/-- Chunk `c` belongs to the footprint of allocation `nd`: the chunks that
`kmalloc` marks and `kfree` clears,
`[start_chunk, start_chunk + chunk_size + ceilDiv(headerSize, CHUNK_SIZE))`. -/
def nodeRun (nd : allocation_node) (c : Nat) : Prop :=
  nd.start_chunk ≤ c ∧
  c < nd.start_chunk + (nd.chunk_size + divide_and_round_up headerSize CHUNK_SIZE)

instance (nd : allocation_node) (c : Nat) : Decidable (nodeRun nd c) := by
  unfold nodeRun
  infer_instance

/-- The chunk footprints of two allocations share no chunk. -/
def runsDisjoint (a b : allocation_node) : Prop := ∀ c, nodeRun a c → ¬ nodeRun b c

/-- States reachable from the freshly initialized allocator (`kmalloc_init`
zero-fills both tables) by successful `kmalloc` and `kfree` calls, together
with the multiset of live headers: an allocation adds the header `kmalloc`
wrote, a free picks a live header and removes it. -/
inductive Reach (oracle : Nat → Nat) (PS N : Nat) : KState → List allocation_node → Prop
  | init :
      Reach oracle PS N
        ⟨List.replicate (N / 8) 0, List.replicate (N / (PS / CHUNK_SIZE)) 0, 0⟩ []
  | alloc {st live size p nd st'} : Reach oracle PS N st live →
      kmalloc oracle PS N st size = .ok (p, nd, st') → Reach oracle PS N st' (nd :: live)
  | free {st live nd st'} : Reach oracle PS N st live → nd ∈ live →
      kfree PS st nd = .ok st' → Reach oracle PS N st' (live.erase nd)

/-- The bitmap/live-set invariant: pool size is fixed, live footprints are
pairwise disjoint, and bit `c` is set exactly when `c` lies in a live
footprint. -/
def LiveInv (N : Nat) (st : KState) (live : List allocation_node) : Prop :=
  st.pool.length = N / 8 ∧
  live.Pairwise runsDisjoint ∧
  ∀ c, (poolBit st.pool c = 1 ↔ ∃ nd ∈ live, nodeRun nd c)

theorem getD_replicate_zero (m j : Nat) : (List.replicate m (0 : Nat)).getD j 0 = 0 := by
  rw [List.getD_eq_getElem?_getD, List.getElem?_replicate]
  split <;> rfl

theorem poolBit_replicate_zero (m c : Nat) : poolBit (List.replicate m 0) c = 0 := by
  unfold poolBit
  rw [getD_replicate_zero]
  simp [BIT_GET]

theorem runsDisjoint_symm : ∀ {a b : allocation_node}, runsDisjoint a b → runsDisjoint b a :=
  fun hab c hcb hca => hab c hca hcb

theorem runsDisjoint_ne {a b : allocation_node} (h : runsDisjoint a b) : a ≠ b := by
  intro he
  subst he
  have hrun : nodeRun a a.start_chunk :=
    ⟨Nat.le_refl _, by unfold divide_and_round_up headerSize CHUNK_SIZE; omega⟩
  exact h _ hrun hrun

theorem reach_inv {oracle : Nat → Nat} {PS N : Nat} {st : KState}
    {live : List allocation_node} (h8 : 8 ∣ N) (h : Reach oracle PS N st live) :
    LiveInv N st live := by
  induction h with
  | init =>
    refine ⟨by simp, List.Pairwise.nil, ?_⟩
    intro c
    rw [poolBit_replicate_zero]
    simp
  | @alloc st0 live0 size p nd st' hre hok ih =>
    obtain ⟨hlen, hpw, hbits⟩ := ih
    obtain ⟨-, s, hscan, hst', hnd⟩ := kmalloc_ok_elim hok
    obtain ⟨hlt, hfree⟩ := kmallocScan_sound _ _ _ hscan
    have hrunlen : divide_and_round_up (size + headerSize - headerSize) CHUNK_SIZE +
        divide_and_round_up headerSize CHUNK_SIZE
        = divide_and_round_up (size + headerSize) CHUNK_SIZE := by
      unfold divide_and_round_up headerSize CHUNK_SIZE
      omega
    have hbnd : ∀ k, k < divide_and_round_up (size + headerSize) CHUNK_SIZE →
        (s + k) / 8 < st0.pool.length := by
      intro k hk
      rw [hlen]
      omega
    have hndrun : ∀ c, nodeRun nd c ↔
        (s ≤ c ∧ c < s + divide_and_round_up (size + headerSize) CHUNK_SIZE) := by
      intro c
      subst hnd
      unfold nodeRun
      dsimp only
      have hr := hrunlen
      omega
    have hnewbits := backAndSet_pool_bits oracle (PS / CHUNK_SIZE) _ st0 s hbnd
    have hfreebit : ∀ c, nodeRun nd c → poolBit st0.pool c = 0 := by
      intro c hc
      rw [hndrun c] at hc
      have := hfree (c - s) (by omega)
      have he : s + (c - s) = c := by omega
      rw [he] at this
      exact this
    refine ⟨?_, ?_, ?_⟩
    · subst hst'
      rw [backAndSet_pool_length]
      exact hlen
    · refine List.Pairwise.cons ?_ hpw
      intro nd' hmem' c hc hc'
      have h0 := hfreebit c hc
      have h1 := (hbits c).2 ⟨nd', hmem', hc'⟩
      omega
    · intro c
      subst hst'
      rw [hnewbits c]
      by_cases hcin : s ≤ c ∧ c < s + divide_and_round_up (size + headerSize) CHUNK_SIZE
      · rw [if_pos hcin]
        constructor
        · intro _
          exact ⟨nd, List.mem_cons_self _ _, (hndrun c).2 hcin⟩
        · intro _
          rfl
      · rw [if_neg hcin]
        rw [hbits c]
        constructor
        · rintro ⟨nd', hmem', hrun'⟩
          exact ⟨nd', List.mem_cons_of_mem _ hmem', hrun'⟩
        · rintro ⟨nd', hmem', hrun'⟩
          rcases List.mem_cons.1 hmem' with he | hmem''
          · subst he
            exact absurd ((hndrun c).1 hrun') hcin
          · exact ⟨nd', hmem'', hrun'⟩
  | @free st0 live0 nd st' hre hmem hok ih =>
    obtain ⟨hlen, hpw, hbits⟩ := ih
    obtain ⟨hchk, pool', hcl, hst'⟩ := kfree_ok_elim hok
    have hbits' := clearRun_ok_bits _ _ _ _ hcl
    have hnodup : live0.Nodup := hpw.imp (fun hab => runsDisjoint_ne hab)
    have hpairs := List.Pairwise.forall (fun a b h => runsDisjoint_symm h) hpw
    have hndc : ∀ c, nodeRun nd c ↔ (nd.start_chunk ≤ c ∧
        c < nd.start_chunk + (nd.chunk_size + divide_and_round_up headerSize CHUNK_SIZE)) := by
      intro c
      unfold nodeRun
      exact Iff.rfl
    refine ⟨?_, ?_, ?_⟩
    · subst hst'
      dsimp only
      rw [clearRun_ok_length _ _ _ _ hcl]
      exact hlen
    · exact List.Pairwise.sublist (List.erase_sublist _ _) hpw
    · intro c
      subst hst'
      dsimp only
      rw [hbits' c]
      by_cases hcin : nd.start_chunk ≤ c ∧
          c < nd.start_chunk + (nd.chunk_size + divide_and_round_up headerSize CHUNK_SIZE)
      · rw [if_pos hcin]
        constructor
        · intro h01
          exact absurd h01 (by omega)
        · rintro ⟨nd', hmem', hrun'⟩
          exfalso
          obtain ⟨hne, hmem''⟩ := (List.Nodup.mem_erase_iff hnodup).1 hmem'
          have hd : runsDisjoint nd nd' := hpairs hmem hmem'' (fun he => hne he.symm)
          exact hd c ((hndc c).2 hcin) hrun'
      · rw [if_neg hcin]
        rw [hbits c]
        constructor
        · rintro ⟨nd', hmem', hrun'⟩
          have hne : nd' ≠ nd := by
            intro he
            subst he
            exact hcin ((hndc c).1 hrun')
          exact ⟨nd', (List.Nodup.mem_erase_iff hnodup).2 ⟨hne, hmem'⟩, hrun'⟩
        · rintro ⟨nd', hmem', hrun'⟩
          exact ⟨nd', List.mem_of_mem_erase hmem', hrun'⟩

/-- C7: in every state reachable from the initialized allocator by successful
`kmalloc`/`kfree` calls, the chunk footprints of the live allocations are
pairwise disjoint, and bitmap bit `i` is set exactly when chunk `i` belongs to
some live allocation's footprint. -/
theorem c7_bitmap_matches_live {oracle : Nat → Nat} {PS N : Nat} {st : KState}
    {live : List allocation_node} (h8 : 8 ∣ N) (h : Reach oracle PS N st live) :
    live.Pairwise runsDisjoint ∧
    ∀ c, (poolBit st.pool c = 1 ↔ ∃ nd ∈ live, nodeRun nd c) :=
  ⟨(reach_inv h8 h).2.1, (reach_inv h8 h).2.2⟩

/-- C7, witness: the initial state with 16 chunks and no live allocations. -/
theorem c7_witness :
    (8 ∣ 16) ∧
    (List.Pairwise runsDisjoint ([] : List allocation_node) ∧
      ∀ c, (poolBit (KState.pool
          ⟨List.replicate (16 / 8) 0, List.replicate (16 / (32 / CHUNK_SIZE)) 0, 0⟩) c = 1 ↔
        ∃ nd ∈ ([] : List allocation_node), nodeRun nd c)) :=
  ⟨⟨2, rfl⟩, c7_bitmap_matches_live ⟨2, rfl⟩
    (Reach.init : Reach pageOracle 32 16 _ [])⟩
